import Mathlib

/-!
# Verification of `apps/secure_counter/src/main.c` (secure-counter Zephyr app)

Shallow embedding of the application's data model and operations:
a periodic timer schedules a privileged work handler (`tick_work_handler`)
that produces sequence-numbered, timestamped messages into a bounded
message queue (`counter_q`, capacity 16); a restricted (user-mode)
consumer thread dequeues and logs them; shell commands `counter get`,
`counter set <ms>` and `counter attack` query status, reconfigure the
production period, and probe the ungranted `secret_q`.

Machine integers are modelled as `Nat`/`Int` with explicit reduction
modulo `2^32` where the C code casts to `uint32_t`.  Kernel-object
capability checks (Zephyr user-mode enforcement) are modelled by an
explicit grant table consulted on user-mode queue access.
-/

namespace SecureCounter

/-- Modulus of the `uint32_t` casts in the C code (`2^32`). -/
def UINT32_MOD : Nat := 4294967296

/-- Capacity of the public queue: `K_MSGQ_DEFINE(counter_q, sizeof(msg_t), 16, 4)`. -/
def COUNTER_Q_CAP : Nat := 16

/-- Capacity of the secret queue: `K_MSGQ_DEFINE(secret_q, sizeof(msg_t), 1, 4)`. -/
def SECRET_Q_CAP : Nat := 1

/-- Magnitude of `-EINVAL`: the shell commands return `-EINVAL` on bad input. -/
def EINVAL : Int := 22

/-- Magnitude of `-ENOMSG`: `k_msgq_get`/`k_msgq_put` without waiting on an
empty/full queue return `-ENOMSG`. -/
def ENOMSG : Int := 42

/-- Embedding of `msg_t` (a sequence number and a timestamp).  `seq` is the `uint32_t`
value (a natural number `< 2^32`); `ts_ms` is milliseconds since boot. -/
structure Msg where
  seq : Nat
  ts_ms : Int
  deriving DecidableEq, Repr

/-- The two execution contexts of the program: the privileged (kernel-mode)
side (main thread, timer ISR, system work queue, producer) and the
restricted (user-mode) side that runs the consumer loop and the
operator-driven probe of `secret_q`. -/
inductive Ctx where
  | privileged
  | restricted
  deriving DecidableEq

/-- The two kernel message queues defined in `main.c`. -/
inductive Chan where
  | counter_q
  | secret_q
  deriving DecidableEq

/-- Modelled from the spec: grant state of Zephyr kernel objects before
`main` runs.  Kernel objects are accessible from kernel (privileged) mode;
a user-mode (restricted) context holds no grant until one is made
explicitly.  (The enforcement mechanism itself is the platform's, treated
as a trusted service per the spec; the user-mode configuration lives in
the app's project configuration, not under `src/`.) -/
def initial_grant : Ctx → Chan → Bool :=
  fun c _ => c = Ctx.privileged

/-- Embedding of `k_object_access_all_grant(&ch)`: grant every context access to `ch`,
leaving other grants unchanged. -/
def k_object_access_all_grant (ch : Chan) (g : Ctx → Chan → Bool) :
    Ctx → Chan → Bool :=
  fun c ch2 => if ch2 = ch then true else g c ch2

/-- The grant table after `main`'s startup sequence: exactly one call,
`k_object_access_all_grant(&counter_q)`; `secret_q` is intentionally not
granted. -/
def grant : Ctx → Chan → Bool :=
  k_object_access_all_grant Chan.counter_q initial_grant

/-- Program state.  `counter_q`/`secret_q` are the queue contents (head =
next message dequeued, FIFO).  `seq_cnt` counts `atomic_inc` calls (the
atomic register holds `seq_cnt % 2^32`).  `warns` records the sequence
numbers printed by the `LOG_WRN("msgq full; dropped seq=%u")` drop
warnings, in order; `delivered` records the messages printed by the
consumer's `LOG_INF("[USER] got seq=%u at %lld ms")`, in dequeue order;
`produced` records every message constructed by `tick_work_handler`
(enqueued or dropped), in order.  `timer_period`/`timer_starts` model the
interval programmed into `tick_timer` and the number of `k_timer_start`
calls; `clock` is the last value read from the monotonic `k_uptime_get`;
`consumer_alive` is false once the restricted context has been faulted. -/
structure SysState where
  seq_cnt : Nat
  period_ms : Nat
  counter_q : List Msg
  secret_q : List Msg
  warns : List Nat
  delivered : List Msg
  produced : List Msg
  timer_period : Nat
  timer_starts : Nat
  clock : Int
  consumer_alive : Bool
  deriving DecidableEq, Repr

/-- State after `main`'s startup: `period_ms = 100`, `seq_cnt = 0`, empty
queues, timer started once with the 100 ms period, uptime starts at 0. -/
def init : SysState :=
  { seq_cnt := 0
    period_ms := 100
    counter_q := []
    secret_q := []
    warns := []
    delivered := []
    produced := []
    timer_period := 100
    timer_starts := 1
    clock := 0
    consumer_alive := true }

/-- Result of a kernel call made from a given context: either a normal
return, or `fault` — the Access Control Monitor (Zephyr user-mode
enforcement) kills the calling context and control never returns to the
caller's code path.  Modelled from the spec (§4.5) and the code's own
comment ("this call should fault"): the enforcement layer is a trusted
platform service, not application code under `src/`. -/
inductive KRes (α : Type) where
  | ok : α → KRes α
  | fault : KRes α
  deriving DecidableEq

/-- Contents of a queue in a state. -/
def queueOf (s : SysState) : Chan → List Msg
  | Chan.counter_q => s.counter_q
  | Chan.secret_q => s.secret_q

/-- Replace the contents of a queue in a state. -/
def setQueue (s : SysState) : Chan → List Msg → SysState
  | Chan.counter_q, q => { s with counter_q := q }
  | Chan.secret_q, q => { s with secret_q := q }

/-- Embedding of `k_msgq_get(&ch, &m, K_NO_WAIT)` issued from context `ctx`, under the
Access Control Monitor: if `ctx` holds no grant for `ch` the call faults
(no normal return); otherwise it immediately returns `-ENOMSG` on an
empty queue, or pops the head and returns `0` together with the message. -/
def k_msgq_get_nowait (ctx : Ctx) (ch : Chan) (s : SysState) :
    KRes (SysState × Int × Option Msg) :=
  if grant ctx ch then
    match queueOf s ch with
    | [] => KRes.ok (s, -ENOMSG, none)
    | m :: rest => KRes.ok (setQueue s ch rest, 0, some m)
  else
    KRes.fault

/-- Embedding of `tick_work_handler`: runs on the privileged system work queue.  Builds
`m = { .seq = (uint32_t)atomic_inc(&seq_cnt), .ts_ms = k_uptime_get() }`
(so `m.seq` is the pre-increment counter value, reduced mod `2^32`), then
`k_msgq_put(&counter_q, &m, K_NO_WAIT)`: on success the message is
appended; on failure (queue at capacity) it emits the
`LOG_WRN("msgq full; dropped seq=%u", m.seq)` warning and drops the
message.  `now` is the value `k_uptime_get()` returns for this run. -/
def tick_work_handler (s : SysState) (now : Int) : SysState :=
  let m : Msg := { seq := s.seq_cnt % UINT32_MOD, ts_ms := now }
  let s1 := { s with
    seq_cnt := s.seq_cnt + 1
    clock := now
    produced := s.produced ++ [m] }
  if s1.counter_q.length < COUNTER_Q_CAP then
    { s1 with counter_q := s1.counter_q ++ [m] }
  else
    { s1 with warns := s1.warns ++ [m.seq] }

/-- One iteration of `consumer_thread`'s loop body, taken when a message
is available (with `K_FOREVER` the call blocks until then, so no loop
iteration completes on an empty queue): `k_msgq_get(&counter_q, &m, ...)`
from the restricted context, and on return code `0` the
`LOG_INF("[USER] got seq=%u at %lld ms")` observation. -/
def consumer_iter (s : SysState) : KRes SysState :=
  match k_msgq_get_nowait Ctx.restricted Chan.counter_q s with
  | KRes.fault => KRes.fault
  | KRes.ok (s1, rc, some m) =>
      if rc = 0 then KRes.ok { s1 with delivered := s1.delivered ++ [m] }
      else KRes.ok s1
  | KRes.ok (s1, _, none) => KRes.ok s1

/-- Embedding of `cmd_counter_get`: prints `period_ms`, `(uint32_t)atomic_get(&seq_cnt)`
(and the consumer stack headroom, not modelled), mutates nothing, and
returns `0`.  Result: `((reported period, reported seq), return code)`. -/
def cmd_counter_get (s : SysState) : (Nat × Nat) × Int :=
  ((s.period_ms, s.seq_cnt % UINT32_MOD), 0)

/-- Whitespace test (`isspace`) for the characters `strtol` skips. -/
def isSpaceChar (c : Char) : Bool :=
  c.toNat = 32 ∨ (9 ≤ c.toNat ∧ c.toNat ≤ 13)

/-- ASCII decimal digit. -/
def isDigitChar (c : Char) : Bool :=
  48 ≤ c.toNat ∧ c.toNat ≤ 57

/-- Numeric value of a digit string (most significant first). -/
def decVal (ds : List Char) : Nat :=
  ds.foldl (fun a c => 10 * a + (c.toNat - 48)) 0

/-- Value of `LONG_MAX` on the 32-bit target (`qemu_x86`). -/
def LONG_MAX : Int := 2147483647

/-- Value of `LONG_MIN` on the 32-bit target. -/
def LONG_MIN : Int := -2147483648

/-- Clamp to `long` range: `strtol` saturates at `LONG_MIN`/`LONG_MAX`. -/
def clampLong (v : Int) : Int :=
  max LONG_MIN (min LONG_MAX v)

/-- Split an optional leading sign off a character list, returning the
sign and the remainder. -/
def signSplit (cs : List Char) : Int × List Char :=
  match cs with
  | [] => (1, [])
  | c :: rest =>
      if c = '-' then (-1, rest)
      else if c = '+' then (1, rest)
      else (1, c :: rest)

/-- Embedding of `strtol(nptr, &end, 10)` on a 32-bit `long`: skip leading whitespace,
an optional sign, then the longest run of decimal digits; the returned
list is the suffix starting at `end`.  If no digits were consumed, no
conversion is performed: the result is `0` and `end` is `nptr` itself. -/
def strtol10 (cs : List Char) : Int × List Char :=
  let ws := (cs.dropWhile isSpaceChar)
  let sb := signSplit ws
  let ds := sb.2.takeWhile isDigitChar
  if ds = [] then (0, cs)
  else (clampLong (sb.1 * (decVal ds : Int)), sb.2.drop ds.length)

/-- Embedding of `cmd_counter_set` with `argv[1] = arg` (the `argc == 2` path):
`v = strtol(argv[1], &end, 10)`; if the string is empty, has trailing
garbage (`*end != '\0'`), or `v < 10 || v > 10000`, print the validation
error and return `-EINVAL` with no state change; otherwise store
`period_ms = v`, stop the timer and restart it with the new period, and
return `0`. -/
def cmd_counter_set (s : SysState) (arg : String) : SysState × Int :=
  let cs := arg.data
  let pr := strtol10 cs
  if cs = [] ∨ pr.2 ≠ [] ∨ pr.1 < 10 ∨ pr.1 > 10000 then
    (s, -EINVAL)
  else
    ({ s with
        period_ms := pr.1.toNat
        timer_period := pr.1.toNat
        timer_starts := s.timer_starts + 1 }, 0)

/-- Embedding of `cmd_attack_try_secret`: from the restricted context, attempt
`k_msgq_get(&secret_q, &m, K_NO_WAIT)`.  A normal return would fall
through to the `shell_print("unexpectedly returned rc=%d ...")` line,
reported here as `KRes.ok (state, rc)`; a fault never returns. -/
def cmd_attack_try_secret (s : SysState) : KRes (SysState × Int) :=
  match k_msgq_get_nowait Ctx.restricted Chan.secret_q s with
  | KRes.ok (s1, rc, _) => KRes.ok (s1, rc)
  | KRes.fault => KRes.fault

/-- Events of a run: a `tick_work_handler` invocation observing uptime
`now`, a completed consumer loop iteration, the three shell commands. -/
inductive Ev where
  | tick (now : Int)
  | consume
  | getCmd
  | setCmd (arg : String)
  | attack

/-- One step of the system.  `tick` carries the platform guarantee that
`k_uptime_get` is monotonic (`now` is at least the last observed uptime).
`consume` happens only while the restricted context is alive and — since
`k_msgq_get(..., K_FOREVER)` blocks — only when a message is available.
`attack` faults the restricted context (see `attack_always_faults`):
execution never resumes in it, modelled by clearing `consumer_alive`. -/
inductive Step : SysState → Ev → SysState → Prop where
  | tick (s : SysState) (now : Int) (hmono : s.clock ≤ now) :
      Step s (Ev.tick now) (tick_work_handler s now)
  | consume (s s1 : SysState) (halive : s.consumer_alive = true)
      (hne : s.counter_q ≠ []) (hrun : consumer_iter s = KRes.ok s1) :
      Step s Ev.consume s1
  | getCmd (s : SysState) : Step s Ev.getCmd s
  | setCmd (s : SysState) (arg : String) :
      Step s (Ev.setCmd arg) (cmd_counter_set s arg).1
  | attack (s : SysState) (hfault : cmd_attack_try_secret s = KRes.fault) :
      Step s Ev.attack { s with consumer_alive := false }

/-- States reachable from startup. -/
inductive Reachable : SysState → Prop where
  | init : Reachable init
  | step {s s1 : SysState} {e : Ev} :
      Reachable s → Step s e s1 → Reachable s1

/-- A concrete run: starting from `init`, the `n`-th round performs one
producer tick at uptime `n + 1` immediately followed by one consumer
iteration.  The queue never holds more than one message, so nothing is
ever dropped. -/
def runPC : Nat → SysState
  | 0 => init
  | n + 1 =>
      let s1 := tick_work_handler (runPC n) ((n : Int) + 1)
      match consumer_iter s1 with
      | KRes.ok s2 => s2
      | KRes.fault => s1

/-- A well-formed integer input in the sense of `strtol`: optional leading
whitespace, an optional single sign, then one or more decimal digits
extending to the end of the string. -/
def wellFormedInt (cs : List Char) : Bool :=
  let body := (signSplit (cs.dropWhile isSpaceChar)).2
  body ≠ [] ∧ body.all isDigitChar

/-- The mathematical integer denoted by a well-formed integer input. -/
def intValOf (cs : List Char) : Int :=
  let sb := signSplit (cs.dropWhile isSpaceChar)
  sb.1 * (decVal sb.2 : Int)

/-- The state produced by one completed consumer iteration: pop the head
of `counter_q` and append it to the delivery log. -/
def consumed (s : SysState) : SysState :=
  match s.counter_q with
  | [] => s
  | m :: rest => { s with counter_q := rest, delivered := s.delivered ++ [m] }

/-- The message `tick_work_handler` constructs in state `s` at uptime `now`. -/
def tickMsg (s : SysState) (now : Int) : Msg :=
  { seq := s.seq_cnt % UINT32_MOD, ts_ms := now }

/-- The messages that have crossed or sit in the authorized channel, in
production order: delivery log followed by current queue contents. -/
def obsMsgs (s : SysState) : List Msg :=
  s.delivered ++ s.counter_q

/-- Inductive invariant of reachable states: the queue respects its
capacity; all observed timestamps are bounded by the last read of the
monotonic clock and are pairwise non-decreasing in production order; the
production log carries the pre-increment counter values `0, 1, ...`
reduced mod `2^32`; and the delivered/queued messages carry the values of
a strictly increasing list of attempt indices, all below the current
counter, reduced mod `2^32`. -/
def Inv (s : SysState) : Prop :=
  s.counter_q.length ≤ COUNTER_Q_CAP ∧
  (∀ m ∈ obsMsgs s, m.ts_ms ≤ s.clock) ∧
  List.Pairwise (fun m1 m2 => m1.ts_ms ≤ m2.ts_ms) (obsMsgs s) ∧
  s.produced.map Msg.seq = (List.range s.seq_cnt).map (fun k => k % UINT32_MOD) ∧
  ∃ as : List Nat, List.Pairwise (· < ·) as ∧ (∀ a ∈ as, a < s.seq_cnt) ∧
    (obsMsgs s).map Msg.seq = as.map (fun k => k % UINT32_MOD)

/-- The message produced in round `k` of `runPC` (attempt index `k`,
uptime `k + 1`). -/
def pcMsg (k : Nat) : Msg :=
  { seq := k % UINT32_MOD, ts_ms := (k : Int) + 1 }

/-- Whether an event is a production attempt (a `tick_work_handler` run). -/
def isTick : Ev → Bool
  | Ev.tick _ => true
  | _ => false

/-- A concrete state whose authorized channel is at capacity, used to
exercise the drop path. -/
def full_state : SysState :=
  { init with counter_q := List.replicate 16 { seq := 0, ts_ms := 0 } }

theorem grant_restricted_counter_q : grant Ctx.restricted Chan.counter_q = true := by
  decide

theorem grant_restricted_secret_q : grant Ctx.restricted Chan.secret_q = false := by
  decide

/-- The consumer's checked dequeue never faults (its channel is granted)
and acts as `consumed`. -/
theorem consumer_iter_eq (s : SysState) : consumer_iter s = KRes.ok (consumed s) := by
  unfold consumer_iter k_msgq_get_nowait consumed
  rw [grant_restricted_counter_q]
  cases h : queueOf s Chan.counter_q with
  | nil =>
      simp only [if_true]
      have : s.counter_q = [] := h
      simp [this, ENOMSG]
  | cons m rest =>
      simp only [if_true]
      have : s.counter_q = m :: rest := h
      simp [this, setQueue]

theorem takeWhile_eq_self_of_all {p : Char → Bool} :
    ∀ l : List Char, l.all p = true → l.takeWhile p = l := by
  intro l h
  induction l with
  | nil => rfl
  | cons c t ih =>
      simp only [List.all_cons, Bool.and_eq_true] at h
      simp [List.takeWhile_cons, h.1, ih h.2]

theorem length_takeWhile_lt_of_not_all {p : Char → Bool} :
    ∀ l : List Char, l.all p = false → (l.takeWhile p).length < l.length := by
  intro l h
  induction l with
  | nil => simp at h
  | cons c t ih =>
      by_cases hc : p c = true
      · simp only [List.all_cons, hc, Bool.true_and] at h
        simpa [List.takeWhile_cons, hc] using Nat.succ_lt_succ (ih h)
      · simp only [Bool.not_eq_true] at hc
        simp [List.takeWhile_cons, hc]

theorem body_nil_of_nil {cs : List Char} (h : cs = []) :
    (signSplit (cs.dropWhile isSpaceChar)).2 = [] := by
  subst h; rfl

theorem strtol10_eq (cs : List Char) :
    strtol10 cs =
      if (signSplit (cs.dropWhile isSpaceChar)).2.takeWhile isDigitChar = [] then
        (0, cs)
      else
        (clampLong ((signSplit (cs.dropWhile isSpaceChar)).1 *
            (decVal ((signSplit (cs.dropWhile isSpaceChar)).2.takeWhile isDigitChar) : Int)),
          (signSplit (cs.dropWhile isSpaceChar)).2.drop
            ((signSplit (cs.dropWhile isSpaceChar)).2.takeWhile isDigitChar).length) := rfl

theorem tick_eq_of_space (s : SysState) (now : Int)
    (h : s.counter_q.length < COUNTER_Q_CAP) :
    tick_work_handler s now =
      { s with
          seq_cnt := s.seq_cnt + 1
          clock := now
          produced := s.produced ++ [tickMsg s now]
          counter_q := s.counter_q ++ [tickMsg s now] } := by
  unfold tick_work_handler tickMsg
  simp [h]

theorem tick_eq_of_full (s : SysState) (now : Int)
    (h : ¬ s.counter_q.length < COUNTER_Q_CAP) :
    tick_work_handler s now =
      { s with
          seq_cnt := s.seq_cnt + 1
          clock := now
          produced := s.produced ++ [tickMsg s now]
          warns := s.warns ++ [s.seq_cnt % UINT32_MOD] } := by
  unfold tick_work_handler tickMsg
  simp [h]

theorem tick_seq_cnt (s : SysState) (now : Int) :
    (tick_work_handler s now).seq_cnt = s.seq_cnt + 1 := by
  by_cases h : s.counter_q.length < COUNTER_Q_CAP
  · rw [tick_eq_of_space s now h]
  · rw [tick_eq_of_full s now h]

theorem tick_produced (s : SysState) (now : Int) :
    (tick_work_handler s now).produced = s.produced ++ [tickMsg s now] := by
  by_cases h : s.counter_q.length < COUNTER_Q_CAP
  · rw [tick_eq_of_space s now h]
  · rw [tick_eq_of_full s now h]

theorem tick_delivered (s : SysState) (now : Int) :
    (tick_work_handler s now).delivered = s.delivered := by
  by_cases h : s.counter_q.length < COUNTER_Q_CAP
  · rw [tick_eq_of_space s now h]
  · rw [tick_eq_of_full s now h]

theorem tick_clock (s : SysState) (now : Int) :
    (tick_work_handler s now).clock = now := by
  by_cases h : s.counter_q.length < COUNTER_Q_CAP
  · rw [tick_eq_of_space s now h]
  · rw [tick_eq_of_full s now h]

/-- On a well-formed integer string, `strtol` consumes the whole string
and yields the denoted value, clamped to `long` range. -/
theorem strtol10_of_wf (cs : List Char) (hwf : wellFormedInt cs = true) :
    strtol10 cs = (clampLong (intValOf cs), []) := by
  unfold wellFormedInt at hwf
  simp only [ne_eq, Bool.and_eq_true, decide_eq_true_eq] at hwf
  obtain ⟨hne, hall⟩ := hwf
  unfold strtol10 intValOf
  have htw := takeWhile_eq_self_of_all (signSplit (cs.dropWhile isSpaceChar)).2 hall
  simp [htw, hne, List.drop_length]

/-- On a non-well-formed string, either the string is empty or `strtol`
leaves a nonempty remainder. -/
theorem not_wf_cases (cs : List Char) (h : wellFormedInt cs = false) :
    cs = [] ∨ (strtol10 cs).2 ≠ [] := by
  by_cases hcs : cs = []
  · exact Or.inl hcs
  · right
    simp only [wellFormedInt] at h
    have hP := of_decide_eq_false h
    rw [strtol10_eq]
    by_cases hds : (signSplit (cs.dropWhile isSpaceChar)).2.takeWhile isDigitChar = []
    · -- no digits consumed: `end` stays at the start of the (nonempty) string
      simp [hds, hcs]
    · -- digits were consumed but a non-digit follows: the remainder past
      -- `end` is nonempty
      have hbody : (signSplit (cs.dropWhile isSpaceChar)).2 ≠ [] := by
        intro hb
        exact hds (by rw [hb]; rfl)
      have hall : (signSplit (cs.dropWhile isSpaceChar)).2.all isDigitChar = false := by
        by_cases ha : (signSplit (cs.dropWhile isSpaceChar)).2.all isDigitChar = true
        · exact absurd ⟨hbody, ha⟩ hP
        · simpa using ha
      have hlt := length_takeWhile_lt_of_not_all
        (p := isDigitChar) (signSplit (cs.dropWhile isSpaceChar)).2 hall
      have hpos : 0 < ((signSplit (cs.dropWhile isSpaceChar)).2.drop
          ((signSplit (cs.dropWhile isSpaceChar)).2.takeWhile isDigitChar).length).length := by
        rw [List.length_drop]; omega
      rw [List.length_pos] at hpos
      simpa [hds] using hpos

/-- C2: the grant table established at startup gives the restricted
context exactly the authorized channel (`counter_q`, granted to every
context — here the privileged and restricted ones — by
`k_object_access_all_grant`) and never the shadow channel; `secret_q` is
accessible from the privileged context alone. -/
theorem capability_grants_exact (c : Ctx) :
    grant c Chan.counter_q = true ∧
    grant Ctx.restricted Chan.counter_q = true ∧
    grant Ctx.restricted Chan.secret_q = false ∧
    grant Ctx.privileged Chan.secret_q = true ∧
    (grant c Chan.secret_q = true ↔ c = Ctx.privileged) := by
  cases c <;> decide

/-- C1: `attack` never returns normally — the ungranted non-blocking
receive on `secret_q` faults the restricted context, so the statement
after the `k_msgq_get` call in `cmd_attack_try_secret` is unreachable —
and the privileged side is unaffected: the fault (modelled by clearing
`consumer_alive`) preserves the sequence counter, period and timer, and a
subsequent producer tick still increments the sequence counter. -/
theorem attack_never_returns_and_privileged_continues
    (s s1 : SysState) (rc now : Int) :
    cmd_attack_try_secret s = KRes.fault ∧
    cmd_attack_try_secret s ≠ KRes.ok (s1, rc) ∧
    Step s Ev.attack { s with consumer_alive := false } ∧
    ({ s with consumer_alive := false } : SysState).seq_cnt = s.seq_cnt ∧
    ({ s with consumer_alive := false } : SysState).period_ms = s.period_ms ∧
    ({ s with consumer_alive := false } : SysState).timer_period = s.timer_period ∧
    ({ s with consumer_alive := false } : SysState).timer_starts = s.timer_starts ∧
    (tick_work_handler { s with consumer_alive := false } now).seq_cnt =
      s.seq_cnt + 1 := by
  have hfault : cmd_attack_try_secret s = KRes.fault := by
    unfold cmd_attack_try_secret k_msgq_get_nowait
    rw [grant_restricted_secret_q]
    simp
  refine ⟨hfault, by simp [hfault], Step.attack s hfault, rfl, rfl, rfl, rfl, ?_⟩
  rw [tick_seq_cnt]

/-- C3: when the producer's non-blocking enqueue finds `counter_q` at
capacity, the drop warning is emitted (one new `LOG_WRN` record — the
drop count, `warns.length`, grows by exactly one), the message is dropped
(queue unchanged — a single attempt, no retry, no blocking), production
continues (`seq_cnt` still advances), and the condition is never surfaced
to `get`/`set` callers: `get` returns `0` and `set`'s return code does
not depend on the state at all. -/
theorem enqueue_full_drops_and_warns (s t : SysState) (now : Int) (arg : String)
    (hfull : s.counter_q.length = COUNTER_Q_CAP) :
    (tick_work_handler s now).warns = s.warns ++ [s.seq_cnt % UINT32_MOD] ∧
    (tick_work_handler s now).warns.length = s.warns.length + 1 ∧
    (tick_work_handler s now).counter_q = s.counter_q ∧
    (tick_work_handler s now).seq_cnt = s.seq_cnt + 1 ∧
    (cmd_counter_set s arg).2 = (cmd_counter_set t arg).2 ∧
    (cmd_counter_get s).2 = 0 := by
  have hnlt : ¬ s.counter_q.length < COUNTER_Q_CAP := by omega
  have he := tick_eq_of_full s now hnlt
  refine ⟨by rw [he], by rw [he]; simp, by rw [he], by rw [he], ?_, rfl⟩
  unfold cmd_counter_set
  by_cases h : (arg.data = [] ∨ (strtol10 arg.data).2 ≠ [] ∨
      (strtol10 arg.data).1 < 10 ∨ (strtol10 arg.data).1 > 10000) <;>
    simp [h]

/-- C4: for every integer `v` with `10 ≤ v ≤ 10000`, `set` applied to any
well-formed rendering of `v` succeeds (returns `0`), stores `v` as the
period, restarts the timer with it, and a subsequent `get` reports
period `= v`. -/
theorem set_valid_roundtrip (s : SysState) (v : Nat) (cs : List Char)
    (hwf : wellFormedInt cs = true) (hv : intValOf cs = (v : Int))
    (hlo : 10 ≤ v) (hhi : v ≤ 10000) :
    (cmd_counter_set s (String.mk cs)).2 = 0 ∧
    (cmd_counter_set s (String.mk cs)).1.period_ms = v ∧
    (cmd_counter_set s (String.mk cs)).1.timer_period = v ∧
    (cmd_counter_get (cmd_counter_set s (String.mk cs)).1).1.1 = v := by
  have hdata : (String.mk cs).data = cs := rfl
  have hs := strtol10_of_wf cs hwf
  have hclamp : clampLong (intValOf cs) = (v : Int) := by
    rw [hv]; unfold clampLong LONG_MIN LONG_MAX; omega
  have hne : cs ≠ [] := by
    intro hnil
    have := body_nil_of_nil hnil
    simp only [wellFormedInt] at hwf
    rw [this] at hwf
    exact absurd (of_decide_eq_true hwf).1 (by simp)
  have hcond : ¬ (cs = [] ∨ (([] : List Char) ≠ []) ∨
      (((v : Int) : Int) < 10) ∨ (((v : Int) : Int) > 10000)) := by
    push_neg
    refine ⟨hne, rfl, ?_, ?_⟩
    · exact_mod_cast hlo
    · exact_mod_cast hhi
  simp only [cmd_counter_set, hs, hclamp]
  rw [if_neg hcond]
  refine ⟨rfl, ?_, ?_, ?_⟩ <;> simp [cmd_counter_get]

/-- C5: every input that is not a well-formed integer, or denotes a value
below 10 or above 10000, is rejected synchronously with `-EINVAL` and
mutates nothing: the returned state is the old state (same period, same
timer interval, no timer restart), and a subsequent `get` reports the
previously configured period. -/
theorem set_invalid_rejected_no_mutation (s : SysState) (cs : List Char)
    (hbad : wellFormedInt cs = false ∨ intValOf cs < 10 ∨ 10000 < intValOf cs) :
    cmd_counter_set s (String.mk cs) = (s, -EINVAL) ∧
    (cmd_counter_set s (String.mk cs)).1.period_ms = s.period_ms ∧
    (cmd_counter_set s (String.mk cs)).1.timer_period = s.timer_period ∧
    (cmd_counter_set s (String.mk cs)).1.timer_starts = s.timer_starts ∧
    (cmd_counter_get (cmd_counter_set s (String.mk cs)).1).1.1 = s.period_ms := by
  have hcond : (cs = [] ∨ (strtol10 cs).2 ≠ [] ∨
      (strtol10 cs).1 < 10 ∨ (strtol10 cs).1 > 10000) := by
    by_cases hwf : wellFormedInt cs = true
    · have hs := strtol10_of_wf cs hwf
      have hv : intValOf cs < 10 ∨ 10000 < intValOf cs := by
        rcases hbad with hb | hb | hb
        · rw [hwf] at hb; cases hb
        · exact Or.inl hb
        · exact Or.inr hb
      rw [hs]
      unfold clampLong LONG_MIN LONG_MAX
      rcases hv with hv | hv
      · right; right; left; simp only []; omega
      · right; right; right; simp only []; omega
    · have hwfF : wellFormedInt cs = false := by
        cases hq : wellFormedInt cs with
        | true => exact absurd hq hwf
        | false => rfl
      rcases not_wf_cases cs hwfF with h | h
      · exact Or.inl h
      · exact Or.inr (Or.inl h)
  have hrej : cmd_counter_set s (String.mk cs) = (s, -EINVAL) := by
    simp only [cmd_counter_set]
    rw [if_pos hcond]
  exact ⟨hrej, by rw [hrej], by rw [hrej], by rw [hrej], by rw [hrej]; rfl⟩

theorem tick_alive (s : SysState) (now : Int) :
    (tick_work_handler s now).consumer_alive = s.consumer_alive := by
  by_cases h : s.counter_q.length < COUNTER_Q_CAP
  · rw [tick_eq_of_space s now h]
  · rw [tick_eq_of_full s now h]

theorem consumed_of_cons {s : SysState} {m : Msg} {rest : List Msg}
    (h : s.counter_q = m :: rest) :
    consumed s = { s with counter_q := rest, delivered := s.delivered ++ [m] } := by
  unfold consumed
  rw [h]

theorem set_state_fields (s : SysState) (arg : String) :
    (cmd_counter_set s arg).1.seq_cnt = s.seq_cnt ∧
    (cmd_counter_set s arg).1.counter_q = s.counter_q ∧
    (cmd_counter_set s arg).1.delivered = s.delivered ∧
    (cmd_counter_set s arg).1.produced = s.produced ∧
    (cmd_counter_set s arg).1.warns = s.warns ∧
    (cmd_counter_set s arg).1.clock = s.clock := by
  simp only [cmd_counter_set]
  split <;> exact ⟨rfl, rfl, rfl, rfl, rfl, rfl⟩

theorem inv_init : Inv init := by
  refine ⟨by simp [init, COUNTER_Q_CAP], ?_, ?_, ?_, [], ?_, ?_, ?_⟩ <;>
    simp [init, obsMsgs]

theorem inv_tick {s : SysState} (hI : Inv s) {now : Int} (hmono : s.clock ≤ now) :
    Inv (tick_work_handler s now) := by
  obtain ⟨hlen, hts, hpw, hprod, as, haspw, hasbd, hasmap⟩ := hI
  by_cases h : s.counter_q.length < COUNTER_Q_CAP
  · rw [tick_eq_of_space s now h]
    have hobs : obsMsgs { s with
        seq_cnt := s.seq_cnt + 1
        clock := now
        produced := s.produced ++ [tickMsg s now]
        counter_q := s.counter_q ++ [tickMsg s now] } = obsMsgs s ++ [tickMsg s now] := by
      unfold obsMsgs
      simp
    refine ⟨?_, ?_, ?_, ?_, as ++ [s.seq_cnt], ?_, ?_, ?_⟩
    · simpa using h
    · rw [hobs]
      intro m hm
      rcases List.mem_append.mp hm with hm | hm
      · exact le_trans (hts m hm) hmono
      · simp only [List.mem_singleton] at hm
        subst hm
        exact le_refl now
    · rw [hobs, List.pairwise_append]
      refine ⟨hpw, List.pairwise_singleton _ _, ?_⟩
      intro a ha b hb
      simp only [List.mem_singleton] at hb
      subst hb
      exact le_trans (hts a ha) hmono
    · show (s.produced ++ [tickMsg s now]).map Msg.seq = _
      rw [List.map_append, hprod, List.range_succ, List.map_append]
      rfl
    · rw [List.pairwise_append]
      refine ⟨haspw, List.pairwise_singleton _ _, ?_⟩
      intro a ha b hb
      simp only [List.mem_singleton] at hb
      subst hb
      exact hasbd a ha
    · intro a ha
      rcases List.mem_append.mp ha with ha | ha
      · exact Nat.lt_succ_of_lt (hasbd a ha)
      · simp only [List.mem_singleton] at ha
        subst ha
        exact Nat.lt_succ_self _
    · rw [hobs, List.map_append, hasmap, List.map_append]
      rfl
  · rw [tick_eq_of_full s now h]
    have hobs : obsMsgs { s with
        seq_cnt := s.seq_cnt + 1
        clock := now
        produced := s.produced ++ [tickMsg s now]
        warns := s.warns ++ [s.seq_cnt % UINT32_MOD] } = obsMsgs s := rfl
    refine ⟨hlen, ?_, ?_, ?_, as, haspw, ?_, ?_⟩
    · rw [hobs]
      intro m hm
      exact le_trans (hts m hm) hmono
    · rw [hobs]; exact hpw
    · show (s.produced ++ [tickMsg s now]).map Msg.seq = _
      rw [List.map_append, hprod, List.range_succ, List.map_append]
      rfl
    · intro a ha
      exact Nat.lt_succ_of_lt (hasbd a ha)
    · rw [hobs]; exact hasmap

theorem inv_consumed {s : SysState} (hI : Inv s) : Inv (consumed s) := by
  obtain ⟨hlen, hts, hpw, hprod, as, haspw, hasbd, hasmap⟩ := hI
  cases hq : s.counter_q with
  | nil =>
      unfold consumed
      rw [hq]
      exact ⟨hlen, hts, hpw, hprod, as, haspw, hasbd, hasmap⟩
  | cons m rest =>
      rw [consumed_of_cons hq]
      have hobs : obsMsgs { s with counter_q := rest, delivered := s.delivered ++ [m] } =
          obsMsgs s := by
        unfold obsMsgs
        rw [hq]
        simp
      refine ⟨?_, ?_, ?_, hprod, as, haspw, hasbd, ?_⟩
      · have : rest.length ≤ s.counter_q.length := by rw [hq]; simp
        exact le_trans this hlen
      · rw [hobs]; exact hts
      · rw [hobs]; exact hpw
      · rw [hobs]; exact hasmap

theorem inv_set {s : SysState} (hI : Inv s) (arg : String) :
    Inv (cmd_counter_set s arg).1 := by
  obtain ⟨hlen, hts, hpw, hprod, as, haspw, hasbd, hasmap⟩ := hI
  simp only [cmd_counter_set]
  split
  · exact ⟨hlen, hts, hpw, hprod, as, haspw, hasbd, hasmap⟩
  · exact ⟨hlen, hts, hpw, hprod, as, haspw, hasbd, hasmap⟩

theorem inv_kill {s : SysState} (hI : Inv s) :
    Inv { s with consumer_alive := false } := by
  obtain ⟨hlen, hts, hpw, hprod, as, haspw, hasbd, hasmap⟩ := hI
  exact ⟨hlen, hts, hpw, hprod, as, haspw, hasbd, hasmap⟩

/-- Every reachable state satisfies the inductive invariant. -/
theorem reachable_inv {s : SysState} (hr : Reachable s) : Inv s := by
  induction hr with
  | init => exact inv_init
  | @step t s1 e hr hstep ih =>
      cases hstep with
      | tick now hmono => exact inv_tick ih hmono
      | consume s2 halive hne hrun =>
          have hok : KRes.ok (consumed t) = KRes.ok s1 := by
            rw [← consumer_iter_eq t, hrun]
          cases hok
          exact inv_consumed ih
      | getCmd => exact ih
      | setCmd arg => exact inv_set ih arg
      | attack hfault => exact inv_kill ih

theorem runPC_eq (n : Nat) :
    runPC n =
      { seq_cnt := n
        period_ms := 100
        counter_q := []
        secret_q := []
        warns := []
        delivered := (List.range n).map pcMsg
        produced := (List.range n).map pcMsg
        timer_period := 100
        timer_starts := 1
        clock := (n : Int)
        consumer_alive := true } := by
  induction n with
  | zero => simp [runPC, init]
  | succ n ih =>
      have hlen : (runPC n).counter_q.length < COUNTER_Q_CAP := by
        rw [ih]; simp [COUNTER_Q_CAP]
      have hstep : runPC (n + 1) =
          consumed (tick_work_handler (runPC n) ((n : Int) + 1)) := by
        simp only [runPC]
        rw [consumer_iter_eq]
      rw [hstep, tick_eq_of_space _ _ hlen, ih]
      simp [consumed, tickMsg, pcMsg, List.range_succ]

theorem reachable_runPC (n : Nat) : Reachable (runPC n) := by
  induction n with
  | zero => exact Reachable.init
  | succ n ih =>
      have hlen : (runPC n).counter_q.length < COUNTER_Q_CAP := by
        rw [runPC_eq n]; simp [COUNTER_Q_CAP]
      have hmono : (runPC n).clock ≤ (n : Int) + 1 := by
        rw [runPC_eq n]
        simp only []
        omega
      have h1 : Reachable (tick_work_handler (runPC n) ((n : Int) + 1)) :=
        Reachable.step ih (Step.tick (runPC n) ((n : Int) + 1) hmono)
      have halive : (tick_work_handler (runPC n) ((n : Int) + 1)).consumer_alive = true := by
        rw [tick_alive, runPC_eq n]
      have hne : (tick_work_handler (runPC n) ((n : Int) + 1)).counter_q ≠ [] := by
        rw [tick_eq_of_space _ _ hlen]
        simp
      have h2 : Reachable (consumed (tick_work_handler (runPC n) ((n : Int) + 1))) :=
        Reachable.step h1 (Step.consume _ _ halive hne (consumer_iter_eq _))
      have hstep : runPC (n + 1) =
          consumed (tick_work_handler (runPC n) ((n : Int) + 1)) := by
        simp only [runPC]
        rw [consumer_iter_eq]
      rw [hstep]
      exact h2

theorem consumed_seq_cnt (s : SysState) : (consumed s).seq_cnt = s.seq_cnt := by
  cases hq : s.counter_q with
  | nil => unfold consumed; rw [hq]
  | cons m rest => rw [consumed_of_cons hq]

/-- C7: the sequence counter starts at 0, is incremented by exactly one
by each production attempt (`tick_work_handler` run) whether or not the
enqueue succeeds, is unchanged by every other operation, and never
decreases. -/
theorem seq_cnt_per_step (s s1 : SysState) (e : Ev) (h : Step s e s1) :
    init.seq_cnt = 0 ∧
    s1.seq_cnt = (if isTick e then s.seq_cnt + 1 else s.seq_cnt) ∧
    s.seq_cnt ≤ s1.seq_cnt := by
  have hstep : s1.seq_cnt = (if isTick e then s.seq_cnt + 1 else s.seq_cnt) := by
    cases h with
    | tick now hmono => simp [isTick, tick_seq_cnt]
    | consume s2 halive hne hrun =>
        have hok : KRes.ok (consumed s) = KRes.ok s1 := by
          rw [← consumer_iter_eq s, hrun]
        cases hok
        simp [isTick, consumed_seq_cnt]
    | getCmd => simp [isTick]
    | setCmd arg => simp [isTick, (set_state_fields s arg).1]
    | attack hfault => simp [isTick]
  refine ⟨rfl, hstep, ?_⟩
  rw [hstep]
  split <;> omega

/-- Witness for `seq_cnt_per_step` at a concrete step (a `get` command
from the startup state). -/
theorem seq_cnt_per_step_witness :
    init.seq_cnt = 0 ∧
    init.seq_cnt = (if isTick Ev.getCmd then init.seq_cnt + 1 else init.seq_cnt) ∧
    init.seq_cnt ≤ init.seq_cnt :=
  seq_cnt_per_step init init Ev.getCmd (Step.getCmd init)

/-- C8: in every reachable state the authorized channel holds at most its
capacity of 16 messages; a production attempt keeps the occupancy within
capacity and always either enqueues its message or records it as dropped
(one unit accounted per attempt — the producer is never blocked and the
queue never grows past capacity). -/
theorem counter_q_bounded (s : SysState) (now : Int) (hr : Reachable s) :
    s.counter_q.length ≤ COUNTER_Q_CAP ∧
    (tick_work_handler s now).counter_q.length ≤ COUNTER_Q_CAP ∧
    (tick_work_handler s now).counter_q.length + (tick_work_handler s now).warns.length
      = s.counter_q.length + s.warns.length + 1 := by
  have hlen := (reachable_inv hr).1
  by_cases h : s.counter_q.length < COUNTER_Q_CAP
  · rw [tick_eq_of_space s now h]
    refine ⟨hlen, ?_, ?_⟩ <;> simp <;> omega
  · rw [tick_eq_of_full s now h]
    refine ⟨hlen, hlen, ?_⟩
    simp
    omega

/-- Witness for `counter_q_bounded` at the startup state. -/
theorem counter_q_bounded_witness :
    init.counter_q.length ≤ COUNTER_Q_CAP ∧
    (tick_work_handler init 1).counter_q.length ≤ COUNTER_Q_CAP ∧
    (tick_work_handler init 1).counter_q.length + (tick_work_handler init 1).warns.length
      = init.counter_q.length + init.warns.length + 1 :=
  counter_q_bounded init 1 Reachable.init

/-- C9: the messages logged by the consumer, in dequeue order, have
pairwise non-decreasing timestamps. -/
theorem delivered_timestamps_monotone (s : SysState) (hr : Reachable s) :
    List.Pairwise (fun m1 m2 => m1.ts_ms ≤ m2.ts_ms) s.delivered := by
  obtain ⟨-, -, hpw, -, -, -, -, -⟩ := reachable_inv hr
  exact hpw.sublist (List.sublist_append_left _ _)

/-- Witness for `delivered_timestamps_monotone` after two
produce/consume rounds. -/
theorem delivered_timestamps_monotone_witness :
    List.Pairwise (fun m1 m2 => m1.ts_ms ≤ m2.ts_ms) (runPC 2).delivered :=
  delivered_timestamps_monotone (runPC 2) (reachable_runPC 2)

/-- C10: every produced message carries the pre-increment value of the
sequence counter: after `n` production attempts the counter holds `n` and
the messages produced so far carry, in order, the sequence numbers
`0, 1, ..., n-1` reduced mod `2^32`; the `get` command reports the
counter (mod `2^32`) — the number of attempts so far. -/
theorem produced_carry_preincrement (s : SysState) (hr : Reachable s) :
    s.produced.length = s.seq_cnt ∧
    s.produced.map Msg.seq = (List.range s.seq_cnt).map (fun k => k % UINT32_MOD) ∧
    (cmd_counter_get s).1.2 = s.produced.length % UINT32_MOD := by
  obtain ⟨-, -, -, hprod, -, -, -, -⟩ := reachable_inv hr
  have hlenp : s.produced.length = s.seq_cnt := by
    have hcong := congrArg List.length hprod
    simpa using hcong
  exact ⟨hlenp, hprod, by simp [cmd_counter_get, hlenp]⟩

/-- Witness for `produced_carry_preincrement` after one
produce/consume round. -/
theorem produced_carry_preincrement_witness :
    (runPC 1).produced.length = (runPC 1).seq_cnt ∧
    (runPC 1).produced.map Msg.seq =
      (List.range (runPC 1).seq_cnt).map (fun k => k % UINT32_MOD) ∧
    (cmd_counter_get (runPC 1)).1.2 = (runPC 1).produced.length % UINT32_MOD :=
  produced_carry_preincrement (runPC 1) (reachable_runPC 1)

/-- C6 (amended): in every reachable state whose number of production
attempts has not yet reached `2^32` (the wrap-around point of the
`uint32_t` sequence field), the sequence numbers delivered to the
consumer are strictly increasing in dequeue order, with no duplicate. -/
theorem delivered_seq_strictly_increasing (s : SysState) (hr : Reachable s)
    (hbound : s.seq_cnt ≤ UINT32_MOD) :
    List.Pairwise (· < ·) (s.delivered.map Msg.seq) ∧
    (s.delivered.map Msg.seq).Nodup := by
  obtain ⟨-, -, -, -, as, haspw, hasbd, hasmap⟩ := reachable_inv hr
  have hsplit : s.delivered.map Msg.seq ++ s.counter_q.map Msg.seq
      = as.map (fun k => k % UINT32_MOD) := by
    rw [← List.map_append]
    exact hasmap
  have htake : s.delivered.map Msg.seq
      = (as.take (s.delivered.map Msg.seq).length).map (fun k => k % UINT32_MOD) := by
    calc s.delivered.map Msg.seq
        = (s.delivered.map Msg.seq ++ s.counter_q.map Msg.seq).take
            (s.delivered.map Msg.seq).length := (List.take_left _ _).symm
      _ = ((as.map (fun k => k % UINT32_MOD)).take (s.delivered.map Msg.seq).length) := by
          rw [hsplit]
      _ = (as.take (s.delivered.map Msg.seq).length).map (fun k => k % UINT32_MOD) :=
          (List.map_take _ _ _).symm
  have hid : (as.take (s.delivered.map Msg.seq).length).map (fun k => k % UINT32_MOD)
      = as.take (s.delivered.map Msg.seq).length := by
    have hmem : ∀ a ∈ as.take (s.delivered.map Msg.seq).length,
        a % UINT32_MOD = a := fun a ha =>
      Nat.mod_eq_of_lt (lt_of_lt_of_le (hasbd a (List.take_subset _ _ ha)) hbound)
    calc (as.take (s.delivered.map Msg.seq).length).map (fun k => k % UINT32_MOD)
        = (as.take (s.delivered.map Msg.seq).length).map id := List.map_congr_left hmem
      _ = as.take (s.delivered.map Msg.seq).length := List.map_id _
  have hpair : List.Pairwise (· < ·) (s.delivered.map Msg.seq) := by
    rw [htake, hid]
    exact haspw.sublist (List.take_sublist _ _)
  exact ⟨hpair, hpair.imp (fun h => Nat.ne_of_lt h)⟩

/-- Witness for `delivered_seq_strictly_increasing` after two
produce/consume rounds. -/
theorem delivered_seq_strictly_increasing_witness :
    List.Pairwise (· < ·) ((runPC 2).delivered.map Msg.seq) ∧
    ((runPC 2).delivered.map Msg.seq).Nodup :=
  delivered_seq_strictly_increasing (runPC 2) (reachable_runPC 2) (by decide)

/-- C6 counterexample: in the reachable run that performs `2^32 + 1`
produce/consume rounds, the `uint32_t` sequence field wraps: the
delivered sequence numbers are not strictly increasing and contain a
duplicate (attempt `2^32` is delivered with sequence number 0 again). -/
theorem delivered_seq_wraps_after_2pow32 :
    Reachable (runPC (UINT32_MOD + 1)) ∧
    ¬ List.Pairwise (· < ·) ((runPC (UINT32_MOD + 1)).delivered.map Msg.seq) ∧
    ¬ ((runPC (UINT32_MOD + 1)).delivered.map Msg.seq).Nodup := by
  have hdel : (runPC (UINT32_MOD + 1)).delivered.map Msg.seq
      = (List.range (UINT32_MOD + 1)).map (fun k => k % UINT32_MOD) := by
    rw [runPC_eq]
    rw [List.map_map]
    rfl
  have hlen : ((List.range (UINT32_MOD + 1)).map (fun k => k % UINT32_MOD)).length
      = UINT32_MOD + 1 := by simp
  have hMpos : 0 < UINT32_MOD := by decide
  have hget : ∀ (i : Nat) (hi : i < ((List.range (UINT32_MOD + 1)).map
        (fun k => k % UINT32_MOD)).length),
      ((List.range (UINT32_MOD + 1)).map (fun k => k % UINT32_MOD)).get ⟨i, hi⟩
        = i % UINT32_MOD := by
    intro i hi
    simp
  refine ⟨reachable_runPC _, ?_, ?_⟩
  · rw [hdel]
    intro h
    have h2 := List.pairwise_iff_get.mp h
      ⟨0, by rw [hlen]; omega⟩ ⟨UINT32_MOD, by rw [hlen]; omega⟩
      (Fin.mk_lt_mk.mpr hMpos)
    rw [hget, hget, Nat.zero_mod, Nat.mod_self] at h2
    exact Nat.lt_irrefl 0 h2
  · rw [hdel]
    intro h
    have h2 := List.pairwise_iff_get.mp h
      ⟨0, by rw [hlen]; omega⟩ ⟨UINT32_MOD, by rw [hlen]; omega⟩
      (Fin.mk_lt_mk.mpr hMpos)
    rw [hget, hget, Nat.zero_mod, Nat.mod_self] at h2
    exact h2 rfl

/-- Witness for `enqueue_full_drops_and_warns` on a concrete state whose
queue is at capacity. -/
theorem enqueue_full_drops_and_warns_witness :
    (tick_work_handler full_state 1).warns
      = full_state.warns ++ [full_state.seq_cnt % UINT32_MOD] ∧
    (tick_work_handler full_state 1).warns.length = full_state.warns.length + 1 ∧
    (tick_work_handler full_state 1).counter_q = full_state.counter_q ∧
    (tick_work_handler full_state 1).seq_cnt = full_state.seq_cnt + 1 ∧
    (cmd_counter_set full_state "50").2 = (cmd_counter_set init "50").2 ∧
    (cmd_counter_get full_state).2 = 0 :=
  enqueue_full_drops_and_warns full_state init 1 "50" (by decide)

/-- Witness for `set_valid_roundtrip` on the input string `"100"`. -/
theorem set_valid_roundtrip_witness :
    (cmd_counter_set init (String.mk ['1', '0', '0'])).2 = 0 ∧
    (cmd_counter_set init (String.mk ['1', '0', '0'])).1.period_ms = 100 ∧
    (cmd_counter_set init (String.mk ['1', '0', '0'])).1.timer_period = 100 ∧
    (cmd_counter_get (cmd_counter_set init (String.mk ['1', '0', '0'])).1).1.1 = 100 :=
  set_valid_roundtrip init 100 ['1', '0', '0'] (by decide) (by decide)
    (by decide) (by decide)

/-- Witness for `set_invalid_rejected_no_mutation` on the out-of-range
input string `"5"`. -/
theorem set_invalid_rejected_no_mutation_witness :
    cmd_counter_set init (String.mk ['5']) = (init, -EINVAL) ∧
    (cmd_counter_set init (String.mk ['5'])).1.period_ms = init.period_ms ∧
    (cmd_counter_set init (String.mk ['5'])).1.timer_period = init.timer_period ∧
    (cmd_counter_set init (String.mk ['5'])).1.timer_starts = init.timer_starts ∧
    (cmd_counter_get (cmd_counter_set init (String.mk ['5'])).1).1.1 = init.period_ms :=
  set_invalid_rejected_no_mutation init ['5'] (Or.inr (Or.inl (by decide)))

end SecureCounter
